import Mathlib

/-!
Shallow embedding of the core of `src/src/App.jsx` (Code Rivals).

The repository's core consists of: the two platform fetchers
(`fetchCodeforcesData`, `fetchLeetCodeData`) with the timestamp helper
`getLocalDate`; the handle normalizer `extractHandle`; the week window
(`getStartOfWeek`, `isDateInCurrentWeek`); the history merger inside
`combinedHistory`; and the ranking (`calculateWeeklyScore`, `rankedUsers`).

Modelling conventions, all taken from the JavaScript source:
* The ambient clock and timezone are explicit parameters: `todayStr` stands
  for `new Date().toLocaleDateString('en-CA')`, `fmt : Int → String` for
  `t ↦ new Date(t * 1000).toLocaleDateString('en-CA')` (rendering of a
  timestamp as a local calendar-day string), and `today : Int` for the local
  epoch-day number of "now".
* JS `undefined`/`null`/`NaN` numeric inputs are modelled as `none` of an
  `Option`; JS falsiness of a number additionally treats `0` as absent.
* Machine numbers of the source are JS doubles holding integers; they are
  modelled as `Int`/`Nat`.
* JS object insertion-order semantics (`Object.keys` returns string keys in
  insertion order) are modelled by association lists updated in place with
  new keys appended at the end; a JS `Set` is a duplicate-free list in
  insertion order.
* Numeric string parsing (`Number`, `parseInt`) is modelled for the decimal
  integer strings the data actually carries; `Number("") = 0` and failure
  (`NaN`) as `none` are modelled explicitly.
-/

/-- A `{date, count}` entry of a platform history, as built by the fetchers. -/
structure DailyRecord where
  date : String
  count : Nat
  deriving DecidableEq, Repr

/-- The `{totalSolved, history}` object a fetcher returns on success
(`PlatformStats` in the specification). -/
structure PlatformStats where
  totalSolved : Nat
  history : List DailyRecord
  deriving DecidableEq, Repr

/-- `user.handles`: per-platform canonical handles; `""` means "not tracked"
(JS falsy string). -/
structure Handles where
  leetcode : String
  codeforces : String
  deriving DecidableEq, Repr

/-- `user.data`: per-platform stats, absent (`none`) when the platform was
never successfully synced. -/
structure UserData where
  leetcode : Option PlatformStats
  codeforces : Option PlatformStats
  deriving DecidableEq, Repr

/-- A tracked user record as stored in the persisted collection. -/
structure UserProfile where
  id : Int
  username : String
  handles : Handles
  data : UserData
  deriving DecidableEq, Repr

/-- `getLocalDate` from App.jsx: converts a UNIX timestamp to a local
`YYYY-MM-DD` string.  `if (!timestamp || isNaN(timestamp)) return new
Date().toLocaleDateString('en-CA')`: a missing/`NaN` timestamp (`none`) or
`0` (falsy) yields today's local date string; otherwise the timestamp is
rendered by the timezone's formatter.  The `try/catch` in the source never
fires for number inputs, so it adds no case. -/
def getLocalDate (todayStr : String) (fmt : Int → String) (ts : Option Int) : String :=
  match ts with
  | none => todayStr
  | some t => if t = 0 then todayStr else fmt t

/-- A Codeforces submission record, the fields the fetcher reads:
`{verdict, problem: {contestId, index}, creationTimeSeconds}`. -/
structure CFSub where
  verdict : String
  contestId : Int
  index : String
  creationTimeSeconds : Option Int
  deriving DecidableEq, Repr

/-- `` `${sub.problem.contestId}-${sub.problem.index}` `` -/
def problemId (sub : CFSub) : String :=
  toString sub.contestId ++ "-" ++ sub.index

/-- `Set.add`: JS sets keep insertion order and drop duplicates. -/
def insertUnique (l : List String) (x : String) : List String :=
  if x ∈ l then l else l ++ [x]

/-- One step of `dailySolved[date].add(problemId)` including the
`if (!dailySolved[date]) dailySolved[date] = new Set()` initialization:
a new date key is appended at the end (JS object insertion order). -/
def addToDay (m : List (String × List String)) (d pid : String) :
    List (String × List String) :=
  match m with
  | [] => [(d, [pid])]
  | (d', s) :: rest =>
    if d' = d then (d', insertUnique s pid) :: rest
    else (d', s) :: addToDay rest d pid

/-- The body of `data.result.forEach(sub => ...)` in `fetchCodeforcesData`:
state is `(totalUnique, dailySolved)`.  Only `verdict === "OK"` submissions
contribute; the day bucket is only touched when `sub.creationTimeSeconds`
is truthy (present and nonzero). -/
def cfStep (todayStr : String) (fmt : Int → String)
    (st : List String × List (String × List String)) (sub : CFSub) :
    List String × List (String × List String) :=
  if sub.verdict = "OK" then
    let tu := insertUnique st.1 (problemId sub)
    match sub.creationTimeSeconds with
    | some t =>
      if t = 0 then (tu, st.2)
      else (tu, addToDay st.2 (getLocalDate todayStr fmt (some t)) (problemId sub))
    | none => (tu, st.2)
  else st

/-- `fetchCodeforcesData` from App.jsx, its pure core: the transport is
modelled as the decoded response, `status` plus the submission list
`data.result`.  A non-`"OK"` status throws and the `catch` returns `null`
(`none`); on success the result is `{totalSolved: totalUnique.size,
history: Object.keys(dailySolved).map(date => {date, count: set.size})}`. -/
def fetchCodeforcesData (todayStr : String) (fmt : Int → String)
    (status : String) (subs : List CFSub) : Option PlatformStats :=
  if status = "OK" then
    let st := subs.foldl (cfStep todayStr fmt) ([], [])
    some { totalSolved := st.1.length, history := st.2.map fun p => ⟨p.1, p.2.length⟩ }
  else none

/-- Value of the leading decimal-digit run, `none` when there is none
(`parseInt` yields `NaN`). -/
def digitsVal (l : List Char) : Option Nat :=
  let ds := l.takeWhile Char.isDigit
  if ds.isEmpty then none
  else some (ds.foldl (fun a c => a * 10 + (c.toNat - 48)) 0)

/-- JS `parseInt` on the strings the LeetCode calendar carries: optional
whitespace, optional sign, then a decimal digit run; no digits is `NaN`
(`none`).  (The hexadecimal `0x` form never occurs in this data.) -/
def parseIntJS (s : String) : Option Int :=
  match s.data.dropWhile Char.isWhitespace with
  | '-' :: rest => (digitsVal rest).map fun n => -(n : Int)
  | '+' :: rest => (digitsVal rest).map fun n => (n : Int)
  | l => (digitsVal l).map fun n => (n : Int)

/-- `fetchLeetCodeData` from App.jsx, its pure core: the decoded response is
`status`, the entries of `data.submissionCalendar || {}` (timestamp-string →
count, in object order), and `data.totalSolved`.  A non-`"success"` status
ends in the `catch` returning `null` (`none`); otherwise every calendar entry
becomes `{date: getLocalDate(parseInt(ts)), count}`. -/
def fetchLeetCodeData (todayStr : String) (fmt : Int → String)
    (status : String) (submissionCalendar : List (String × Nat))
    (totalSolved : Nat) : Option PlatformStats :=
  if status = "success" then
    some { totalSolved := totalSolved,
           history := submissionCalendar.map fun p =>
             ⟨getLocalDate todayStr fmt (parseIntJS p.1), p.2⟩ }
  else none

/-- The whitespace class JS `String.prototype.trim` strips, for the ASCII
range the repository's inputs live in. -/
def jsWhitespace (c : Char) : Bool :=
  c == ' ' || c == '\t' || c == '\n' || c == '\r' || c == '\x0b' || c == '\x0c'

/-- Strip leading whitespace. -/
def trimL (l : List Char) : List Char := l.dropWhile jsWhitespace

/-- Strip trailing whitespace. -/
def trimR (l : List Char) : List Char := (l.reverse.dropWhile jsWhitespace).reverse

/-- JS `input.trim()` on the underlying character list. -/
def jsTrim (l : List Char) : List Char := trimR (trimL l)

/-- JS `s.trim()` as a `String` function. -/
def trimStr (s : String) : String := String.mk (jsTrim s.data)

/-- `pat` is a prefix of `l` (character by character). -/
def startsWithL : List Char → List Char → Bool
  | [], _ => true
  | _ :: _, [] => false
  | p :: ps, c :: cs => p == c && startsWithL ps cs

/-- The greedy `[^\/]+` capture: the maximal run of non-`'/'` characters. -/
def capture (l : List Char) : List Char := l.takeWhile fun c => c != '/'

/-- Characters of the literal `leetcode.com/` of the LeetCode profile-URL
regex. -/
def lcPat : List Char := "leetcode.com/".data

/-- Characters of the optional `u/` group. -/
def uPat : List Char := "u/".data

/-- Attempt of the regex `/leetcode\.com\/(?:u\/)?([^\/]+)/` at one start
position: the literal `leetcode.com/`, then greedily the optional `u/`
(backtracking to drop it when the capture would be empty, in which case the
capture is the `u` itself), then the nonempty non-`'/'` capture. -/
def lcTryAt (l : List Char) : Option (List Char) :=
  if startsWithL lcPat l then
    if startsWithL uPat (l.drop lcPat.length) then
      match (l.drop lcPat.length).drop uPat.length with
      | [] => some ['u']
      | c :: rest => if c != '/' then some (capture (c :: rest)) else some ['u']
    else
      match l.drop lcPat.length with
      | [] => none
      | c :: rest => if c != '/' then some (capture (c :: rest)) else none
  else none

/-- Leftmost match of the LeetCode profile-URL regex: try every start
position left to right (`String.prototype.match` with an unanchored
pattern). -/
def lcFind : List Char → Option (List Char)
  | [] => none
  | c :: rest =>
    match lcTryAt (c :: rest) with
    | some cap => some cap
    | none => lcFind rest

/-- Characters of the literal `codeforces.com/profile/` of the Codeforces
profile-URL regex. -/
def cfPat : List Char := "codeforces.com/profile/".data

/-- Attempt of the regex `/codeforces\.com\/profile\/([^\/]+)/` at one start
position. -/
def cfTryAt (l : List Char) : Option (List Char) :=
  if startsWithL cfPat l then
    match l.drop cfPat.length with
    | [] => none
    | c :: rest => if c != '/' then some (capture (c :: rest)) else none
  else none

/-- Leftmost match of the Codeforces profile-URL regex. -/
def cfFind : List Char → Option (List Char)
  | [] => none
  | c :: rest =>
    match cfTryAt (c :: rest) with
    | some cap => some cap
    | none => cfFind rest

/-- The platform dispatch of `extractHandle` on the trimmed input: the
capture of the platform's URL regex when it matches, the trimmed input
otherwise (and for any other platform tag). -/
def extractCore (clean : List Char) (platform : String) : List Char :=
  if platform = "LeetCode" then
    match lcFind clean with
    | some cap => cap
    | none => clean
  else if platform = "Codeforces" then
    match cfFind clean with
    | some cap => cap
    | none => clean
  else clean

/-- `extractHandle` from App.jsx.  `input` is the raw user string, `none`
standing for JS `null`/`undefined`; `if (!input) return ''` also catches the
empty string.  Otherwise the input is trimmed and the platform's profile-URL
regex is applied. -/
def extractHandle (input : Option String) (platform : String) : String :=
  match input with
  | none => ""
  | some s =>
    if s = "" then ""
    else String.mk (extractCore (jsTrim s.data) platform)

/-- Day count of the proleptic Gregorian calendar since 1970-01-01 (negative
before), for a year/month/day with `1 ≤ m ≤ 12`; the day component extends
linearly outside `1..(days in month)` exactly as JS `Date` day rollover
does. -/
def daysFromCivil (y m d : Int) : Int :=
  let y2 := if m ≤ 2 then y - 1 else y
  let era := y2.fdiv 400
  let yoe := y2 - era * 400
  let mp := (m + 9) % 12
  let doy := (153 * mp + 2).fdiv 5 + d - 1
  let doe := yoe * 365 + yoe.fdiv 4 - yoe.fdiv 100 + doy
  era * 146097 + doe - 719468

/-- The local epoch-day number of `new Date(y, m - 1, d)`: the two-digit-year
rule (years `0..99` mean `1900..1999`) and month rollover (`m - 1` is reduced
modulo 12 into the year) of the JS `Date` constructor, then the civil day
count. -/
def jsDateToDay (y m d : Int) : Int :=
  let y1 := if 0 ≤ y ∧ y ≤ 99 then y + 1900 else y
  let mi := m - 1
  daysFromCivil (y1 + mi.fdiv 12) (mi.emod 12 + 1) d

/-- `d.getDay()` on a local epoch-day number: 0 = Sunday … 6 = Saturday
(1970-01-01 was a Thursday, day 4). -/
def getDayJS (day : Int) : Int := (day + 4) % 7

/-- `getStartOfWeek` from App.jsx at day granularity: `now` truncated to
local midnight is the epoch day `today`; `diff = d.getDate() - day + (day ===
0 ? -6 : 1)` followed by `setDate(diff)` moves back 6 days on a Sunday and
`getDay() - 1` days otherwise (JS `setDate` rolls over month boundaries as
plain day arithmetic). -/
def getStartOfWeek (today : Int) : Int :=
  today - (if getDayJS today = 0 then 6 else getDayJS today - 1)

/-- The comparison core of `isDateInCurrentWeek` on epoch-day numbers:
`date.getTime() >= startOfWeek.getTime() && date.getTime() <
endOfWeek.getTime()` where `endOfWeek = startOfWeek + 7 days`; local
midnights compare exactly as their day numbers do. -/
def isDayInCurrentWeek (today day : Int) : Bool :=
  decide (getStartOfWeek today ≤ day ∧ day < getStartOfWeek today + 7)

/-- JS `Number` on a date-string component: `Number("") = 0`; a decimal
integer string is its value; anything else is `NaN` (`none`).  (The
fractional, hexadecimal and padded forms `Number` also accepts never arise
from splitting the repository's date strings.) -/
def jsNumber (s : String) : Option Int :=
  if s = "" then some 0 else s.toInt?

/-- `dateStr.split('-').map(Number)` destructured into `[y, m, d]`: the
first three components, `none` when one of them is `NaN` or the split has
fewer than three parts (then `new Date(...)` is an Invalid Date and every
time comparison on it is false). -/
def parseDateStr (s : String) : Option (Int × Int × Int) :=
  match (s.splitOn "-").map jsNumber with
  | some y :: some m :: some d :: _ => some (y, m, d)
  | _ => none

/-- `isDateInCurrentWeek` from App.jsx.  `none` stands for JS
`null`/`undefined`; `if (!dateStr) return false` also catches `""`.  An
unparsable remainder yields an Invalid Date whose `NaN` time makes both
comparisons false. -/
def isDateInCurrentWeek (today : Int) (dateStr : Option String) : Bool :=
  match dateStr with
  | none => false
  | some s =>
    if s = "" then false
    else
      match parseDateStr s with
      | some (y, m, d) => isDayInCurrentWeek today (jsDateToDay y m d)
      | none => false

/-- `historyMap[entry.date] = (historyMap[entry.date] || 0) + entry.count`:
add to an existing date key in place, or append a new one (JS object
insertion order). -/
def upsert (m : List (String × Nat)) (d : String) (c : Nat) : List (String × Nat) :=
  match m with
  | [] => [(d, c)]
  | (d', c') :: rest =>
    if d' = d then (d', c' + c) :: rest
    else (d', c') :: upsert rest d c

/-- The `merge(hist)` helper of `combinedHistory`: `if (!hist) return;`
then fold the history's entries into the map. -/
def mergeInto (m : List (String × Nat)) (hist : Option (List DailyRecord)) :
    List (String × Nat) :=
  match hist with
  | none => m
  | some h => h.foldl (fun acc e => upsert acc e.date e.count) m

/-- The merge phase of `combinedHistory` from App.jsx (the `UnifiedActivity`
map of the specification, before the view's timeframe filter and sort):
`merge(user.data?.leetcode?.history); merge(user.data?.codeforces?.history)`. -/
def combinedHistoryMap (u : UserProfile) : List (String × Nat) :=
  mergeInto (mergeInto [] (u.data.leetcode.map PlatformStats.history))
    (u.data.codeforces.map PlatformStats.history)

/-- Lookup in the unified map, `0` for an absent date (`historyMap[d] || 0`). -/
def getCount (m : List (String × Nat)) (d : String) : Nat :=
  match m.find? fun p => decide (p.1 = d) with
  | some p => p.2
  | none => 0

/-- Total count a single platform's history holds for one date (the
per-platform summand of the specification's additive merge). -/
def histSum (hist : Option (List DailyRecord)) (d : String) : Nat :=
  match hist with
  | none => 0
  | some h => ((h.filter fun r => decide (r.date = d)).map DailyRecord.count).sum

/-- The `sumWeekly(history)` helper of `calculateWeeklyScore`:
`history.filter(h => isDateInCurrentWeek(h.date)).reduce((acc, curr) => acc +
curr.count, 0)`, `0` for an absent history. -/
def sumWeekly (today : Int) (hist : Option (List DailyRecord)) : Nat :=
  match hist with
  | none => 0
  | some h =>
    ((h.filter fun r => isDateInCurrentWeek today (some r.date)).map
      DailyRecord.count).sum

/-- `calculateWeeklyScore` from App.jsx: the LeetCode and Codeforces weekly
sums added. -/
def calculateWeeklyScore (today : Int) (u : UserProfile) : Nat :=
  sumWeekly today (u.data.leetcode.map PlatformStats.history) +
    sumWeekly today (u.data.codeforces.map PlatformStats.history)

/-- `{...user, weeklyScore}`: a user together with the derived score. -/
structure RankedProfile where
  user : UserProfile
  weeklyScore : Nat
  deriving DecidableEq, Repr

/-- The order `rankedUsers` sorts by: the comparator `(a, b) => b.weeklyScore
- a.weeklyScore` puts `a` no later than `b` exactly when `b.weeklyScore ≤
a.weeklyScore`. -/
def scoreGE (a b : RankedProfile) : Prop := b.weeklyScore ≤ a.weeklyScore

instance : DecidableRel scoreGE :=
  fun a b => inferInstanceAs (Decidable (b.weeklyScore ≤ a.weeklyScore))

instance : IsTotal RankedProfile scoreGE :=
  ⟨fun a b => Nat.le_total b.weeklyScore a.weeklyScore⟩

instance : IsTrans RankedProfile scoreGE :=
  ⟨fun _ _ _ hab hbc => Nat.le_trans hbc hab⟩

/-- `rankedUsers` from App.jsx: map each user to `{...user, weeklyScore}`
and sort by score descending.  `Array.prototype.sort` is stable
(ECMAScript), and the stable descending order is what insertion sort with
`scoreGE` produces. -/
def rankedUsers (today : Int) (users : List UserProfile) : List RankedProfile :=
  List.insertionSort scoreGE
    (users.map fun u => ⟨u, calculateWeeklyScore today u⟩)

/-- `manualSync` from App.jsx with the two fetches supplied as functions
(the transport is outside the core): `updates.data = {...user.data}`, then
for each platform whose handle is set (truthy string) and whose fetch
returned data (non-`null`), that platform's stats are replaced wholesale;
`onUpdateUser` merges `updates` over the stored record. -/
def manualSync (u : UserProfile) (fetchLC fetchCF : String → Option PlatformStats) :
    UserProfile :=
  let d1 :=
    if u.handles.leetcode ≠ "" then
      match fetchLC u.handles.leetcode with
      | some s => { u.data with leetcode := some s }
      | none => u.data
    else u.data
  let d2 :=
    if u.handles.codeforces ≠ "" then
      match fetchCF u.handles.codeforces with
      | some s => { d1 with codeforces := some s }
      | none => d1
    else d1
  { u with data := d2 }

/-- First-occurrence deduplication, the contents of a JS `Set` built by
inserting a list left to right. -/
def dedupFirst (l : List String) : List String := l.foldl insertUnique []

/-- The `(local date, problem id)` pairs of the accepted submissions that
reach the day-bucketing branch of `fetchCodeforcesData` (verdict `"OK"` and
a truthy `creationTimeSeconds`), in submission order. -/
def cfEntries (todayStr : String) (fmt : Int → String) (subs : List CFSub) :
    List (String × String) :=
  subs.filterMap fun sub =>
    if sub.verdict = "OK" then
      match sub.creationTimeSeconds with
      | some t =>
        if t = 0 then none
        else some (getLocalDate todayStr fmt (some t), problemId sub)
      | none => none
    else none

/-- The problem ids credited to one local day, in submission order. -/
def pidsOn (entries : List (String × String)) (d : String) : List String :=
  (entries.filter fun e => decide (e.1 = d)).map Prod.snd

/-- The distinct local days of the bucketed entries, in first-seen order. -/
def cfDays (entries : List (String × String)) : List String :=
  dedupFirst (entries.map Prod.fst)

/-- The problem ids of all accepted submissions (`totalUnique` receives
these, timestamp or not), in submission order. -/
def okPids (subs : List CFSub) : List String :=
  subs.filterMap fun sub =>
    if sub.verdict = "OK" then some (problemId sub) else none

/-- A concrete timezone formatter for counterexamples: timestamp `1` falls on
the local day `2024-01-01`, every other timestamp on `2024-01-02`. -/
def exFmt : Int → String := fun t => if t = 1 then "2024-01-01" else "2024-01-02"

/-- The specification's merge example: platform A (LeetCode) history
`{2024-01-01: 2}`, platform B (Codeforces) history
`{2024-01-01: 3, 2024-01-02: 1}`. -/
def mergeExampleUser : UserProfile :=
  { id := 1, username := "a", handles := ⟨"", ""⟩,
    data := { leetcode := some ⟨2, [⟨"2024-01-01", 2⟩]⟩,
              codeforces := some ⟨4, [⟨"2024-01-01", 3⟩, ⟨"2024-01-02", 1⟩]⟩ } }

/-- The in-window sum over a unified date→count map: total of the counts at
the dates the membership test accepts (the specification's
`weeklyScore` read off `UnifiedActivity`). -/
def weekFilterSum (today : Int) (m : List (String × Nat)) : Nat :=
  ((m.filter fun p => isDateInCurrentWeek today (some p.1)).map Prod.snd).sum

/-- The day-bucket map `fetchCodeforcesData` ends up with, described
directly: the distinct bucketed days in first-seen order, each with its
distinct problem ids in first-seen order. -/
def dayMap (entries : List (String × String)) : List (String × List String) :=
  (cfDays entries).map fun d => (d, dedupFirst (pidsOn entries d))

/-! ## Theorems -/

/-- C9: the week-window membership test is total at its public interface:
applied to a `null`/`undefined` date (modelled `none`) or to the empty
string it returns `false` instead of throwing or treating the input as a
valid date. -/
theorem isDateInCurrentWeek_total (today : Int) :
    isDateInCurrentWeek today none = false ∧
      isDateInCurrentWeek today (some "") = false := by
  exact ⟨rfl, by simp [isDateInCurrentWeek]⟩

/-- C3: for every "now" (as a local epoch day `today`), `getStartOfWeek`
is the most recent Monday on or before today (day-of-week 1, at most 6 days
back — so on a Sunday it is the preceding Monday), and the membership test
on a calendar day is true iff `startOfWeek ≤ day < startOfWeek + 7`: the
Monday boundary is in the window, the following Sunday (`startOfWeek + 6`)
is in the window, and the following Monday (`startOfWeek + 7`) is
excluded. -/
theorem week_window_spec (today : Int) :
    getDayJS (getStartOfWeek today) = 1 ∧
      getStartOfWeek today ≤ today ∧
      today < getStartOfWeek today + 7 ∧
      (∀ day : Int, isDayInCurrentWeek today day = true ↔
        getStartOfWeek today ≤ day ∧ day < getStartOfWeek today + 7) ∧
      isDayInCurrentWeek today (getStartOfWeek today) = true ∧
      isDayInCurrentWeek today (getStartOfWeek today + 6) = true ∧
      isDayInCurrentWeek today (getStartOfWeek today + 7) = false := by
  have hmem : ∀ day : Int, isDayInCurrentWeek today day = true ↔
      getStartOfWeek today ≤ day ∧ day < getStartOfWeek today + 7 := by
    intro day
    simp [isDayInCurrentWeek]
  refine ⟨?_, ?_, ?_, hmem, ?_, ?_, ?_⟩
  · simp only [getStartOfWeek, getDayJS]
    split <;> omega
  · simp only [getStartOfWeek, getDayJS]
    split <;> omega
  · simp only [getStartOfWeek, getDayJS]
    split <;> omega
  · rw [hmem]
    omega
  · rw [hmem]
    omega
  · rw [← Bool.not_eq_true, hmem]
    omega

/-- C7: per-platform independence of `manualSync`.  A platform whose handle
is unset or whose fetch fails (`none`) keeps its previously stored stats
unchanged; a platform whose fetch succeeds has its stats replaced wholesale
by the fetched value — each independently of the other platform's fetch
outcome (the fetch functions are arbitrary). -/
theorem manualSync_independent (u : UserProfile)
    (fetchLC fetchCF : String → Option PlatformStats) :
    (u.handles.leetcode = "" ∨ fetchLC u.handles.leetcode = none →
      (manualSync u fetchLC fetchCF).data.leetcode = u.data.leetcode) ∧
      (∀ s, u.handles.leetcode ≠ "" → fetchLC u.handles.leetcode = some s →
        (manualSync u fetchLC fetchCF).data.leetcode = some s) ∧
      (u.handles.codeforces = "" ∨ fetchCF u.handles.codeforces = none →
        (manualSync u fetchLC fetchCF).data.codeforces = u.data.codeforces) ∧
      (∀ s, u.handles.codeforces ≠ "" → fetchCF u.handles.codeforces = some s →
        (manualSync u fetchLC fetchCF).data.codeforces = some s) := by
  by_cases h1 : u.handles.leetcode = "" <;>
    by_cases h2 : u.handles.codeforces = "" <;>
    rcases hlc : fetchLC u.handles.leetcode with _ | s <;>
    rcases hcf : fetchCF u.handles.codeforces with _ | t <;>
    refine ⟨fun h => ?_, fun s' hne heq => ?_, fun h => ?_, fun s' hne heq => ?_⟩ <;>
    simp_all [manualSync]

theorem dropWhile_head_false {α : Type} {p : α → Bool} :
    ∀ {l t : List α} {a : α}, l.dropWhile p = a :: t → p a = false := by
  intro l
  induction l with
  | nil => intro t a h; simp at h
  | cons c cs ih =>
    intro t a h
    by_cases hc : p c
    · rw [List.dropWhile_cons_of_pos hc] at h
      exact ih h
    · rw [List.dropWhile_cons_of_neg hc] at h
      cases h
      simpa using hc

theorem dropWhile_idem {α : Type} (p : α → Bool) (l : List α) :
    (l.dropWhile p).dropWhile p = l.dropWhile p := by
  cases h : l.dropWhile p with
  | nil => rfl
  | cons a t =>
    rw [List.dropWhile_cons_of_neg]
    simp [dropWhile_head_false h]

theorem dropWhile_concat_neg {α : Type} {p : α → Bool} {a : α} (l : List α)
    (h : p a = false) : (l ++ [a]).dropWhile p = l.dropWhile p ++ [a] := by
  induction l with
  | nil => simp [List.dropWhile_cons, h]
  | cons c cs ih => by_cases hc : p c <;> simp [List.dropWhile_cons, hc, ih]

theorem trimR_cons_of_neg {a : Char} {t : List Char} (h : jsWhitespace a = false) :
    trimR (a :: t) = a :: trimR t := by
  unfold trimR
  rw [List.reverse_cons, dropWhile_concat_neg _ h]
  simp

theorem trimR_idem (l : List Char) : trimR (trimR l) = trimR l := by
  unfold trimR
  rw [List.reverse_reverse, dropWhile_idem]

theorem trimL_trimR_trimL (l : List Char) :
    trimL (trimR (trimL l)) = trimR (trimL l) := by
  cases h : trimL l with
  | nil => rfl
  | cons a t =>
    have ha : jsWhitespace a = false := dropWhile_head_false h
    rw [trimR_cons_of_neg ha]
    simp [trimL, List.dropWhile_cons, ha]

theorem jsTrim_idem (l : List Char) : jsTrim (jsTrim l) = jsTrim l := by
  show trimR (trimL (trimR (trimL l))) = trimR (trimL l)
  rw [trimL_trimR_trimL, trimR_idem]

theorem mem_jsTrim {x : Char} {l : List Char} (h : x ∈ jsTrim l) : x ∈ l := by
  unfold jsTrim trimR trimL at h
  rw [List.mem_reverse] at h
  have h2 := (List.dropWhile_sublist _).subset h
  rw [List.mem_reverse] at h2
  exact (List.dropWhile_sublist _).subset h2

theorem startsWithL_subset :
    ∀ {pat l : List Char}, startsWithL pat l = true → ∀ a ∈ pat, a ∈ l := by
  intro pat
  induction pat with
  | nil => intro l _ a ha; simp at ha
  | cons p ps ih =>
    intro l h a ha
    cases l with
    | nil => simp [startsWithL] at h
    | cons c cs =>
      rw [startsWithL, Bool.and_eq_true, beq_iff_eq] at h
      rcases List.mem_cons.mp ha with rfl | ha2
      · rw [h.1]; exact List.mem_cons_self _ _
      · exact List.mem_cons_of_mem _ (ih h.2 a ha2)

theorem mem_capture {x : Char} {l : List Char} (h : x ∈ capture l) :
    (x != '/') = true := by
  unfold capture at h
  have hpx := List.mem_takeWhile_imp (p := fun c => c != '/') h
  simpa using hpx

theorem capture_ne_nil {c : Char} {rest : List Char} (h : (c != '/') = true) :
    capture (c :: rest) ≠ [] := by
  unfold capture
  simp [List.takeWhile_cons, h]

theorem lcTryAt_some {l cap : List Char} (h : lcTryAt l = some cap) :
    cap ≠ [] ∧ ∀ x ∈ cap, (x != '/') = true := by
  unfold lcTryAt at h
  split at h
  · split at h
    · split at h
      · injection h with h
        subst h
        exact ⟨by simp, by decide⟩
      · split at h
        · injection h with h
          subst h
          exact ⟨capture_ne_nil (by assumption), fun x hx => mem_capture hx⟩
        · injection h with h
          subst h
          exact ⟨by simp, by decide⟩
    · split at h
      · exact Option.noConfusion h
      · split at h
        · injection h with h
          subst h
          exact ⟨capture_ne_nil (by assumption), fun x hx => mem_capture hx⟩
        · exact Option.noConfusion h
  · exact Option.noConfusion h

theorem cfTryAt_some {l cap : List Char} (h : cfTryAt l = some cap) :
    cap ≠ [] ∧ ∀ x ∈ cap, (x != '/') = true := by
  unfold cfTryAt at h
  split at h
  · split at h
    · exact Option.noConfusion h
    · split at h
      · injection h with h
        subst h
        exact ⟨capture_ne_nil (by assumption), fun x hx => mem_capture hx⟩
      · exact Option.noConfusion h
  · exact Option.noConfusion h

theorem lcFind_some :
    ∀ {l cap : List Char}, lcFind l = some cap →
      cap ≠ [] ∧ ∀ x ∈ cap, (x != '/') = true := by
  intro l
  induction l with
  | nil => intro cap h; exact Option.noConfusion h
  | cons c rest ih =>
    intro cap h
    cases ht : lcTryAt (c :: rest) with
    | some cap2 =>
      rw [lcFind, ht] at h
      injection h with h
      subst h
      exact lcTryAt_some ht
    | none =>
      rw [lcFind, ht] at h
      exact ih h

theorem cfFind_some :
    ∀ {l cap : List Char}, cfFind l = some cap →
      cap ≠ [] ∧ ∀ x ∈ cap, (x != '/') = true := by
  intro l
  induction l with
  | nil => intro cap h; exact Option.noConfusion h
  | cons c rest ih =>
    intro cap h
    cases ht : cfTryAt (c :: rest) with
    | some cap2 =>
      rw [cfFind, ht] at h
      injection h with h
      subst h
      exact cfTryAt_some ht
    | none =>
      rw [cfFind, ht] at h
      exact ih h

theorem lcFind_of_no_slash :
    ∀ {l : List Char}, '/' ∉ l → lcFind l = none := by
  intro l
  induction l with
  | nil => intro _; rfl
  | cons c rest ih =>
    intro h
    have h1 : startsWithL lcPat (c :: rest) = false := by
      cases hs : startsWithL lcPat (c :: rest)
      · rfl
      · exact absurd (startsWithL_subset hs '/' (by decide)) h
    rw [lcFind, lcTryAt, h1]
    exact ih fun hm => h (List.mem_cons_of_mem _ hm)

theorem cfFind_of_no_slash :
    ∀ {l : List Char}, '/' ∉ l → cfFind l = none := by
  intro l
  induction l with
  | nil => intro _; rfl
  | cons c rest ih =>
    intro h
    have h1 : startsWithL cfPat (c :: rest) = false := by
      cases hs : startsWithL cfPat (c :: rest)
      · rfl
      · exact absurd (startsWithL_subset hs '/' (by decide)) h
    rw [cfFind, cfTryAt, h1]
    exact ih fun hm => h (List.mem_cons_of_mem _ hm)

theorem extractCore_lc_some (clean : List Char) {cap : List Char}
    (hf : lcFind clean = some cap) : extractCore clean "LeetCode" = cap := by
  unfold extractCore
  rw [if_pos rfl, hf]

theorem extractCore_lc_none (clean : List Char) (hf : lcFind clean = none) :
    extractCore clean "LeetCode" = clean := by
  unfold extractCore
  rw [if_pos rfl, hf]

theorem extractCore_cf_some (clean : List Char) {cap : List Char}
    (hf : cfFind clean = some cap) : extractCore clean "Codeforces" = cap := by
  unfold extractCore
  rw [if_neg (by decide), if_pos rfl, hf]

theorem extractCore_cf_none (clean : List Char) (hf : cfFind clean = none) :
    extractCore clean "Codeforces" = clean := by
  unfold extractCore
  rw [if_neg (by decide), if_pos rfl, hf]

theorem extractCore_other (clean : List Char) {p : String}
    (h1 : p ≠ "LeetCode") (h2 : p ≠ "Codeforces") : extractCore clean p = clean := by
  unfold extractCore
  rw [if_neg h1, if_neg h2]

theorem no_slash_jsTrim {cap : List Char} (hcap : ∀ x ∈ cap, (x != '/') = true) :
    '/' ∉ jsTrim cap := by
  intro hm
  have := hcap '/' (mem_jsTrim hm)
  simp at this

theorem extractCore_stable (clean : List Char) (p : String)
    (hc : jsTrim clean = clean) :
    extractCore (jsTrim (extractCore clean p)) p = jsTrim (extractCore clean p) := by
  by_cases hp : p = "LeetCode"
  · subst hp
    cases hf : lcFind clean with
    | some cap =>
      rw [extractCore_lc_some clean hf]
      exact extractCore_lc_none _
        (lcFind_of_no_slash (no_slash_jsTrim (lcFind_some hf).2))
    | none =>
      rw [extractCore_lc_none clean hf, hc]
      exact extractCore_lc_none clean hf
  · by_cases hp2 : p = "Codeforces"
    · subst hp2
      cases hf : cfFind clean with
      | some cap =>
        rw [extractCore_cf_some clean hf]
        exact extractCore_cf_none _
          (cfFind_of_no_slash (no_slash_jsTrim (cfFind_some hf).2))
      | none =>
        rw [extractCore_cf_none clean hf, hc]
        exact extractCore_cf_none clean hf
    · rw [extractCore_other clean hp hp2, hc]
      exact extractCore_other clean hp hp2

/-- C8 (amended): a second application of `extractHandle` returns the
*trimmed* first result: `extractHandle (extractHandle x p) p =
trim (extractHandle x p)`.  Idempotence as claimed therefore holds exactly
when the extracted handle carries no leading/trailing whitespace (a URL
capture `[^\/]+` may end in a space); the function is total — it always
produces a string. -/
theorem extractHandle_twice (x : Option String) (p : String) :
    extractHandle (some (extractHandle x p)) p = trimStr (extractHandle x p) := by
  have hsome : ∀ s : String, extractHandle (some s) p =
      if s = "" then "" else String.mk (extractCore (jsTrim s.data) p) := by
    intro s
    rfl
  have hempty : extractHandle (some "") p = "" := by
    rw [hsome, if_pos rfl]
  cases x with
  | none =>
    show extractHandle (some "") p = trimStr ""
    rw [hempty]
    decide
  | some s =>
    by_cases hs : s = ""
    · subst hs
      rw [hempty, hempty]
      decide
    · have he : extractHandle (some s) p = String.mk (extractCore (jsTrim s.data) p) := by
        rw [hsome, if_neg hs]
      rw [he]
      by_cases hnil : extractCore (jsTrim s.data) p = []
      · rw [hnil]
        rw [show String.mk [] = "" from rfl, hempty]
        decide
      · have hmkne : String.mk (extractCore (jsTrim s.data) p) ≠ "" := by
          intro hcon
          apply hnil
          have hd : (String.mk (extractCore (jsTrim s.data) p)).data = ("" : String).data := by
            rw [hcon]
          simpa using hd
        rw [hsome, if_neg hmkne]
        exact congrArg String.mk (extractCore_stable (jsTrim s.data) p (jsTrim_idem s.data))

/-- C8 counterexample: on the raw input `"leetcode.com/ab /x"` with platform
`"LeetCode"` the first application captures `"ab "` (the regex class
`[^\/]+` admits the interior space, stopping only at `'/'`), and the second
application trims it to `"ab"` — so `extractHandle` is not idempotent as
claimed. -/
theorem extractHandle_not_idempotent :
    extractHandle (some (extractHandle (some "leetcode.com/ab /x") "LeetCode"))
        "LeetCode" ≠
      extractHandle (some "leetcode.com/ab /x") "LeetCode" := by
  decide

theorem weekFilterSum_upsert (today : Int) (m : List (String × Nat)) (d : String)
    (c : Nat) :
    weekFilterSum today (upsert m d c) =
      weekFilterSum today m +
        (if isDateInCurrentWeek today (some d) then c else 0) := by
  induction m with
  | nil =>
    by_cases hw : isDateInCurrentWeek today (some d) <;>
      simp [weekFilterSum, upsert, hw]
  | cons a rest ih =>
    obtain ⟨d', c'⟩ := a
    by_cases hd : d' = d
    · subst hd
      by_cases hw : isDateInCurrentWeek today (some d') <;>
        simp [weekFilterSum, upsert, hw] <;> omega
    · by_cases hw : isDateInCurrentWeek today (some d') <;>
        simp only [weekFilterSum, upsert, if_neg hd, List.filter_cons, hw] <;>
        simp only [weekFilterSum] at ih <;>
        simp [ih] <;> omega

theorem weekFilterSum_foldl (today : Int) (h : List DailyRecord) :
    ∀ m : List (String × Nat),
      weekFilterSum today (h.foldl (fun acc e => upsert acc e.date e.count) m) =
        weekFilterSum today m + sumWeekly today (some h) := by
  induction h with
  | nil => intro m; simp [sumWeekly]
  | cons e t ih =>
    intro m
    rw [List.foldl_cons, ih, weekFilterSum_upsert]
    by_cases hw : isDateInCurrentWeek today (some e.date) <;>
      simp [sumWeekly, List.filter_cons, hw] <;> omega

theorem weekFilterSum_mergeInto (today : Int) (m : List (String × Nat))
    (hist : Option (List DailyRecord)) :
    weekFilterSum today (mergeInto m hist) =
      weekFilterSum today m + sumWeekly today hist := by
  cases hist with
  | none => simp [mergeInto, sumWeekly]
  | some h => exact weekFilterSum_foldl today h m

/-- C5: `calculateWeeklyScore` equals the in-window sum over the user's
unified activity map (sum of the unified counts at the dates the
week-window test accepts); and a profile holding no per-platform stats has
`weeklyScore = 0` and an empty unified map. -/
theorem calculateWeeklyScore_spec (today : Int) (u : UserProfile) :
    calculateWeeklyScore today u = weekFilterSum today (combinedHistoryMap u) ∧
      (u.data.leetcode = none → u.data.codeforces = none →
        calculateWeeklyScore today u = 0 ∧ combinedHistoryMap u = []) := by
  constructor
  · rw [combinedHistoryMap.eq_def, weekFilterSum_mergeInto, weekFilterSum_mergeInto]
    simp [weekFilterSum, calculateWeeklyScore]
  · intro hlc hcf
    simp [calculateWeeklyScore, combinedHistoryMap, hlc, hcf, sumWeekly, mergeInto]

theorem getCount_upsert (m : List (String × Nat)) (d : String) (c : Nat)
    (d' : String) :
    getCount (upsert m d c) d' = getCount m d' + (if d' = d then c else 0) := by
  induction m with
  | nil =>
    by_cases hd : d' = d
    · subst hd
      simp [getCount, upsert, List.find?]
    · have hd2 : ¬(d = d') := fun h => hd h.symm
      simp [getCount, upsert, List.find?, hd, hd2]
  | cons a rest ih =>
    obtain ⟨a1, a2⟩ := a
    by_cases ha : a1 = d
    · subst ha
      by_cases hd : d' = a1
      · subst hd
        simp [getCount, upsert, List.find?]
      · have hd2 : ¬(a1 = d') := fun h => hd h.symm
        simp [getCount, upsert, List.find?, hd, hd2]
    · by_cases hd : d' = a1
      · subst hd
        have hdd : ¬(d' = d) := fun h => ha (h ▸ rfl)
        simp [getCount, upsert, List.find?, ha, hdd]
      · have hd2 : ¬(a1 = d') := fun h => hd h.symm
        have hstep : upsert ((a1, a2) :: rest) d c = (a1, a2) :: upsert rest d c := by
          simp [upsert, ha]
        have hskip : ∀ l : List (String × Nat),
            getCount ((a1, a2) :: l) d' = getCount l d' := by
          intro l
          simp [getCount, List.find?, hd2]
        rw [hstep, hskip, hskip, ih]

theorem getCount_mergeInto (hist : Option (List DailyRecord)) :
    ∀ (m : List (String × Nat)) (d : String),
      getCount (mergeInto m hist) d = getCount m d + histSum hist d := by
  cases hist with
  | none =>
    intro m d
    simp [mergeInto, histSum]
  | some h =>
    induction h with
    | nil =>
      intro m d
      simp [mergeInto, histSum]
    | cons e t ih =>
      intro m d
      have h1 : mergeInto m (some (e :: t)) =
          mergeInto (upsert m e.date e.count) (some t) := rfl
      have hcons : histSum (some (e :: t)) d =
          (if e.date = d then e.count else 0) + histSum (some t) d := by
        by_cases hed : e.date = d <;> simp [histSum, List.filter_cons, hed]
      rw [h1, ih, getCount_upsert, hcons]
      by_cases hed : e.date = d
      · simp only [hed, if_pos rfl]
        omega
      · have hde : ¬(d = e.date) := fun hh => hed hh.symm
        simp [hed, hde]

/-- C6: the unified activity map is the additive merge of the per-platform
histories — each date's unified count is the sum of that date's counts
across the platforms holding data (a date no platform holds is 0); merging
`{2024-01-01: 2}` with `{2024-01-01: 3, 2024-01-02: 1}` yields
`{2024-01-01: 5, 2024-01-02: 1}`; and a user with no platform data yields
an empty map rather than a failure. -/
theorem combinedHistoryMap_additive (u : UserProfile) :
    (∀ d, getCount (combinedHistoryMap u) d =
        histSum (u.data.leetcode.map PlatformStats.history) d +
          histSum (u.data.codeforces.map PlatformStats.history) d) ∧
      combinedHistoryMap mergeExampleUser =
        [("2024-01-01", 5), ("2024-01-02", 1)] ∧
      (u.data.leetcode = none → u.data.codeforces = none →
        combinedHistoryMap u = []) := by
  refine ⟨fun d => ?_, by decide, fun hlc hcf => ?_⟩
  · show getCount
        (mergeInto (mergeInto [] (u.data.leetcode.map PlatformStats.history))
          (u.data.codeforces.map PlatformStats.history)) d = _
    rw [getCount_mergeInto, getCount_mergeInto]
    simp [getCount, List.find?]
  · simp [combinedHistoryMap, hlc, hcf, mergeInto]

theorem filter_orderedInsert_score (a : RankedProfile) (k : Nat) :
    ∀ l : List RankedProfile,
      (List.orderedInsert scoreGE a l).filter (fun p => decide (p.weeklyScore = k)) =
        if a.weeklyScore = k then
          a :: l.filter (fun p => decide (p.weeklyScore = k))
        else l.filter (fun p => decide (p.weeklyScore = k)) := by
  intro l
  induction l with
  | nil =>
    by_cases hak : a.weeklyScore = k <;> simp [List.orderedInsert, hak]
  | cons b t ih =>
    by_cases hab : scoreGE a b
    · rw [List.orderedInsert, if_pos hab]
      by_cases hak : a.weeklyScore = k <;> simp [List.filter_cons, hak]
    · rw [List.orderedInsert, if_neg hab]
      have hblt : a.weeklyScore < b.weeklyScore := by
        simp only [scoreGE, not_le] at hab
        exact hab
      by_cases hak : a.weeklyScore = k
      · have hbk : ¬(b.weeklyScore = k) := by omega
        simp [List.filter_cons, hbk, ih, hak]
      · by_cases hbk : b.weeklyScore = k <;>
          simp [List.filter_cons, hbk, ih, hak]

theorem filter_insertionSort_score (k : Nat) :
    ∀ l : List RankedProfile,
      (List.insertionSort scoreGE l).filter (fun p => decide (p.weeklyScore = k)) =
        l.filter (fun p => decide (p.weeklyScore = k)) := by
  intro l
  induction l with
  | nil => rfl
  | cons a t ih =>
    rw [List.insertionSort, filter_orderedInsert_score, ih]
    by_cases hak : a.weeklyScore = k <;> simp [List.filter_cons, hak]

/-- C4: `rankedUsers` is exactly the tracked users (each paired with its
weekly score) reordered — a permutation — sorted by `weeklyScore`
descending (`scoreGE`); and the sort is stable: for every score value `k`,
the sublist of ranked entries with score `k` equals, in order, the sublist
of pre-sort entries with score `k`, so ties keep their original relative
order. -/
theorem rankedUsers_spec (today : Int) (users : List UserProfile) :
    (rankedUsers today users).Perm
        (users.map fun u => ⟨u, calculateWeeklyScore today u⟩) ∧
      (rankedUsers today users).Sorted scoreGE ∧
      ∀ k : Nat,
        (rankedUsers today users).filter (fun p => decide (p.weeklyScore = k)) =
          (users.map fun u => ⟨u, calculateWeeklyScore today u⟩).filter
            (fun p => decide (p.weeklyScore = k)) :=
  ⟨List.perm_insertionSort scoreGE _,
    List.sorted_insertionSort scoreGE _,
    fun k => filter_insertionSort_score k _⟩

theorem cfFold_snd (todayStr : String) (fmt : Int → String) :
    ∀ (subs : List CFSub) (st : List String × List (String × List String)),
      (subs.foldl (cfStep todayStr fmt) st).2 =
        (cfEntries todayStr fmt subs).foldl (fun m e => addToDay m e.1 e.2) st.2 := by
  intro subs
  induction subs with
  | nil => intro st; rfl
  | cons sub t ih =>
    intro st
    rw [List.foldl_cons, ih]
    by_cases hv : sub.verdict = "OK"
    · cases hts : sub.creationTimeSeconds with
      | none =>
        have h1 : cfEntries todayStr fmt (sub :: t) = cfEntries todayStr fmt t := by
          simp [cfEntries, List.filterMap_cons, hv, hts]
        have h2 : (cfStep todayStr fmt st sub).2 = st.2 := by
          simp [cfStep, hv, hts]
        rw [h1, h2]
      | some t0 =>
        by_cases ht : t0 = 0
        · have h1 : cfEntries todayStr fmt (sub :: t) = cfEntries todayStr fmt t := by
            simp [cfEntries, List.filterMap_cons, hv, hts, ht]
          have h2 : (cfStep todayStr fmt st sub).2 = st.2 := by
            simp [cfStep, hv, hts, ht]
          rw [h1, h2]
        · have h1 : cfEntries todayStr fmt (sub :: t) =
              (getLocalDate todayStr fmt (some t0), problemId sub) ::
                cfEntries todayStr fmt t := by
            simp [cfEntries, List.filterMap_cons, hv, hts, ht]
          have h2 : (cfStep todayStr fmt st sub).2 =
              addToDay st.2 (getLocalDate todayStr fmt (some t0)) (problemId sub) := by
            simp [cfStep, hv, hts, ht]
          rw [h1, h2, List.foldl_cons]
    · have h1 : cfEntries todayStr fmt (sub :: t) = cfEntries todayStr fmt t := by
        simp [cfEntries, List.filterMap_cons, hv]
      have h2 : cfStep todayStr fmt st sub = st := by
        simp [cfStep, hv]
      rw [h1, h2]

theorem cfFold_fst (todayStr : String) (fmt : Int → String) :
    ∀ (subs : List CFSub) (st : List String × List (String × List String)),
      (subs.foldl (cfStep todayStr fmt) st).1 =
        (okPids subs).foldl insertUnique st.1 := by
  intro subs
  induction subs with
  | nil => intro st; rfl
  | cons sub t ih =>
    intro st
    rw [List.foldl_cons, ih]
    by_cases hv : sub.verdict = "OK"
    · have h1 : okPids (sub :: t) = problemId sub :: okPids t := by
        simp [okPids, List.filterMap_cons, hv]
      have h2 : (cfStep todayStr fmt st sub).1 = insertUnique st.1 (problemId sub) := by
        cases hts : sub.creationTimeSeconds with
        | none => simp [cfStep, hv, hts]
        | some t0 =>
          by_cases ht : t0 = 0 <;> simp [cfStep, hv, hts, ht]
      rw [h1, h2, List.foldl_cons]
    · have h1 : okPids (sub :: t) = okPids t := by
        simp [okPids, List.filterMap_cons, hv]
      have h2 : cfStep todayStr fmt st sub = st := by
        simp [cfStep, hv]
      rw [h1, h2]

theorem mem_insertUnique (l : List String) (x y : String) :
    y ∈ insertUnique l x ↔ y ∈ l ∨ y = x := by
  by_cases h : x ∈ l
  · simp only [insertUnique, if_pos h]
    exact ⟨Or.inl, fun hy => hy.elim id fun he => he ▸ h⟩
  · simp [insertUnique, if_neg h]

theorem nodup_insertUnique (l : List String) (x : String) (h : l.Nodup) :
    (insertUnique l x).Nodup := by
  by_cases hm : x ∈ l
  · simpa [insertUnique, hm] using h
  · rw [insertUnique, if_neg hm]
    exact h.append (List.nodup_singleton x)
      (fun a ha hb => by simp at hb; subst hb; exact hm ha)

theorem mem_foldl_insertUnique (l : List String) :
    ∀ (acc : List String) (y : String),
      y ∈ l.foldl insertUnique acc ↔ y ∈ acc ∨ y ∈ l := by
  induction l with
  | nil => intro acc y; simp
  | cons x t ih =>
    intro acc y
    rw [List.foldl_cons, ih, mem_insertUnique]
    simp only [List.mem_cons]
    tauto

theorem nodup_foldl_insertUnique (l : List String) :
    ∀ acc : List String, acc.Nodup → (l.foldl insertUnique acc).Nodup := by
  induction l with
  | nil => intro acc h; exact h
  | cons x t ih => intro acc h; exact ih _ (nodup_insertUnique _ _ h)

theorem mem_dedupFirst (l : List String) (y : String) :
    y ∈ dedupFirst l ↔ y ∈ l := by
  rw [dedupFirst, mem_foldl_insertUnique]
  simp

theorem nodup_dedupFirst (l : List String) : (dedupFirst l).Nodup :=
  nodup_foldl_insertUnique l [] List.nodup_nil

theorem dedupFirst_concat (l : List String) (x : String) :
    dedupFirst (l ++ [x]) = insertUnique (dedupFirst l) x := by
  rw [dedupFirst, dedupFirst, List.foldl_append]
  rfl

theorem insertUnique_nil (x : String) : insertUnique [] x = [x] := by
  simp [insertUnique]

theorem pidsOn_concat (entries : List (String × String)) (e : String × String)
    (d : String) :
    pidsOn (entries ++ [e]) d =
      pidsOn entries d ++ (if e.1 = d then [e.2] else []) := by
  by_cases h : e.1 = d <;> simp [pidsOn, List.filter_append, h]

theorem cfDays_concat (entries : List (String × String)) (e : String × String) :
    cfDays (entries ++ [e]) = insertUnique (cfDays entries) e.1 := by
  rw [cfDays, List.map_append]
  simp only [List.map_cons, List.map_nil]
  rw [dedupFirst_concat]
  rfl

theorem pidsOn_eq_nil (entries : List (String × String)) (d : String)
    (h : d ∉ entries.map Prod.fst) : pidsOn entries d = [] := by
  have hnil : entries.filter (fun e => decide (e.1 = d)) = [] :=
    List.filter_eq_nil_iff.mpr fun a ha => by
      simp only [decide_eq_true_eq]
      intro hd
      exact h (hd ▸ List.mem_map_of_mem Prod.fst ha)
  rw [pidsOn, hnil]
  rfl

theorem addToDay_map_mem (g : String → List String) (d p : String) :
    ∀ days : List String, days.Nodup → d ∈ days →
      addToDay (days.map fun x => (x, g x)) d p =
        days.map fun x => (x, if x = d then insertUnique (g x) p else g x) := by
  intro days
  induction days with
  | nil => intro _ hd; simp at hd
  | cons a t ih =>
    intro hnd hd
    simp only [List.map_cons, addToDay]
    by_cases ha : a = d
    · rw [if_pos ha, if_pos ha]
      congr 1
      apply List.map_congr_left
      intro x hx
      have hxd : ¬(x = d) := fun hh => (List.nodup_cons.mp hnd).1 (ha ▸ hh ▸ hx)
      rw [if_neg hxd]
    · rw [if_neg ha, if_neg ha]
      congr 1
      have hdt : d ∈ t := by
        rcases List.mem_cons.mp hd with hh | hh
        · exact absurd hh.symm ha
        · exact hh
      exact ih (List.nodup_cons.mp hnd).2 hdt

theorem addToDay_map_not_mem (g : String → List String) (d p : String) :
    ∀ days : List String, d ∉ days →
      addToDay (days.map fun x => (x, g x)) d p =
        (days.map fun x => (x, g x)) ++ [(d, [p])] := by
  intro days
  induction days with
  | nil => intro _; rfl
  | cons a t ih =>
    intro hd
    have ha : ¬(a = d) := fun hh => hd (hh ▸ List.mem_cons_self a t)
    simp only [List.map_cons, addToDay, if_neg ha]
    rw [ih fun hm => hd (List.mem_cons_of_mem a hm)]
    rfl

theorem foldl_addToDay_dayMap :
    ∀ entries : List (String × String),
      entries.foldl (fun m e => addToDay m e.1 e.2) [] = dayMap entries := by
  intro entries
  induction entries using List.reverseRecOn with
  | nil => rfl
  | append_singleton es e ih =>
    rw [List.foldl_append, List.foldl_cons, List.foldl_nil, ih]
    by_cases hmem : e.1 ∈ cfDays es
    · rw [dayMap, addToDay_map_mem _ _ _ (cfDays es) (nodup_dedupFirst _) hmem]
      rw [dayMap, cfDays_concat, insertUnique, if_pos hmem]
      apply List.map_congr_left
      intro x hx
      by_cases hxd : x = e.1
      · rw [if_pos hxd, hxd, pidsOn_concat, if_pos rfl, dedupFirst_concat]
      · rw [if_neg hxd, pidsOn_concat, if_neg fun hh : e.1 = x => hxd hh.symm,
          List.append_nil]
    · rw [dayMap, addToDay_map_not_mem _ _ _ (cfDays es) hmem]
      rw [dayMap, cfDays_concat, insertUnique, if_neg hmem, List.map_append]
      congr 1
      · apply List.map_congr_left
        intro x hx
        rw [pidsOn_concat, if_neg fun hh : e.1 = x => hmem (hh ▸ hx), List.append_nil]
      · have hnotin : e.1 ∉ es.map Prod.fst := fun hm =>
          hmem ((mem_dedupFirst _ _).mpr hm)
        simp only [List.map_cons, List.map_nil]
        rw [pidsOn_concat, pidsOn_eq_nil es _ hnotin, if_pos rfl, List.nil_append,
          show dedupFirst [e.2] = [e.2] from insertUnique_nil e.2]

theorem fetchCodeforcesData_ok (todayStr : String) (fmt : Int → String)
    (subs : List CFSub) :
    fetchCodeforcesData todayStr fmt "OK" subs =
      some { totalSolved := ((subs.foldl (cfStep todayStr fmt) ([], [])).1).length,
             history := ((subs.foldl (cfStep todayStr fmt) ([], [])).2).map
               fun p => ⟨p.1, p.2.length⟩ } := by
  rw [fetchCodeforcesData, if_pos rfl]

/-- C1 (amended): the Codeforces adapter dedupes per `(problem, local day)`,
not globally by problem: the fetched history lists, in first-seen order,
every local day carrying an accepted submission with a usable timestamp,
and each day's count is the number of *distinct* problems accepted on that
day — so a problem accepted on two distinct days is credited to both days
(repeated acceptances within one day still count once); `totalSolved` alone
dedupes by problem identity across all time. -/
theorem cf_dedupe_per_problem_day (todayStr : String) (fmt : Int → String)
    (subs : List CFSub) :
    (fetchCodeforcesData todayStr fmt "OK" subs).map PlatformStats.history =
        some ((cfDays (cfEntries todayStr fmt subs)).map fun d =>
          ⟨d, (dedupFirst (pidsOn (cfEntries todayStr fmt subs) d)).length⟩) ∧
      (fetchCodeforcesData todayStr fmt "OK" subs).map PlatformStats.totalSolved =
        some (dedupFirst (okPids subs)).length := by
  rw [fetchCodeforcesData_ok]
  constructor
  · simp only [Option.map_some']
    rw [cfFold_snd todayStr fmt subs ([], []), foldl_addToDay_dayMap]
    simp [dayMap, List.map_map, Function.comp]
  · simp only [Option.map_some']
    rw [cfFold_fst todayStr fmt subs ([], [])]
    rfl

/-- C1 counterexample: the single problem `1-A` accepted twice, on local
day `2024-01-01` (timestamp 1) and on local day `2024-01-02` (timestamp 2),
is credited to *both* days in the fetched history — not only to the day of
its first acceptance as the claim states. -/
theorem cf_cross_day_credit_counterexample :
    (fetchCodeforcesData "2024-05-15" exFmt "OK"
          [⟨"OK", 1, "A", some 1⟩, ⟨"OK", 1, "A", some 2⟩]).map
        PlatformStats.history =
        some [⟨"2024-01-01", 1⟩, ⟨"2024-01-02", 1⟩] ∧
      ("2024-01-01" : String) ≠ "2024-01-02" :=
  ⟨by decide, by decide⟩

theorem mem_cfEntries_pid {todayStr : String} {fmt : Int → String}
    {subs : List CFSub} {en : String × String}
    (h : en ∈ cfEntries todayStr fmt subs) : en.2 ∈ okPids subs := by
  rw [cfEntries] at h
  obtain ⟨sub, hsub, hfn⟩ := List.mem_filterMap.mp h
  rw [okPids]
  refine List.mem_filterMap.mpr ⟨sub, hsub, ?_⟩
  by_cases hv : sub.verdict = "OK"
  · rw [if_pos hv]
    rw [if_pos hv] at hfn
    cases hts : sub.creationTimeSeconds with
    | none =>
      simp only [hts] at hfn
      exact Option.noConfusion hfn
    | some t0 =>
      simp only [hts] at hfn
      by_cases ht : t0 = 0
      · rw [if_pos ht] at hfn
        exact Option.noConfusion hfn
      · rw [if_neg ht] at hfn
        injection hfn with hfn
        rw [← hfn]
  · rw [if_neg hv] at hfn
    exact Option.noConfusion hfn

/-- C10: every record of a successful Codeforces fetch has a count of at
least 1 (a day only appears in the history because some distinct accepted
problem was bucketed there) and at most `totalSolved` (the day's distinct
problems are a subset of all distinct accepted problems). -/
theorem cf_history_count_bounds (todayStr : String) (fmt : Int → String)
    (status : String) (subs : List CFSub) (stats : PlatformStats)
    (hfetch : fetchCodeforcesData todayStr fmt status subs = some stats) :
    ∀ r ∈ stats.history, 1 ≤ r.count ∧ r.count ≤ stats.totalSolved := by
  intro r hr
  by_cases hs : status = "OK"
  · subst hs
    rw [fetchCodeforcesData_ok] at hfetch
    injection hfetch with hfetch
    subst hfetch
    simp only [cfFold_snd todayStr fmt subs ([], []), cfFold_fst todayStr fmt subs ([], []),
      foldl_addToDay_dayMap] at hr ⊢
    simp only [dayMap, List.map_map] at hr
    obtain ⟨d, hd, rfl⟩ := List.mem_map.mp hr
    constructor
    · show 1 ≤ (dedupFirst (pidsOn (cfEntries todayStr fmt subs) d)).length
      have hd2 : d ∈ (cfEntries todayStr fmt subs).map Prod.fst :=
        (mem_dedupFirst _ _).mp hd
      obtain ⟨en, hen, hfst⟩ := List.mem_map.mp hd2
      have hmem : en.2 ∈ pidsOn (cfEntries todayStr fmt subs) d := by
        rw [pidsOn]
        refine List.mem_map.mpr ⟨en, ?_, rfl⟩
        rw [List.mem_filter]
        exact ⟨hen, by simp [hfst]⟩
      have hne : dedupFirst (pidsOn (cfEntries todayStr fmt subs) d) ≠ [] := by
        intro hnil
        have hmem2 := (mem_dedupFirst _ _).mpr hmem
        rw [hnil] at hmem2
        simp at hmem2
      exact List.length_pos.mpr hne
    · show (dedupFirst (pidsOn (cfEntries todayStr fmt subs) d)).length ≤
        ((okPids subs).foldl insertUnique []).length
      have hsub : dedupFirst (pidsOn (cfEntries todayStr fmt subs) d) ⊆
          dedupFirst (okPids subs) := by
        intro x hx
        rw [mem_dedupFirst]
        have hx2 := (mem_dedupFirst _ _).mp hx
        rw [pidsOn] at hx2
        obtain ⟨en, hen, hsnd⟩ := List.mem_map.mp hx2
        rw [← hsnd]
        exact mem_cfEntries_pid (List.mem_filter.mp hen).1
      exact ((nodup_dedupFirst _).subperm hsub).length_le
  · rw [fetchCodeforcesData, if_neg hs] at hfetch
    exact Option.noConfusion hfetch

/-- C10 witness: the bounds instantiated at a concrete successful fetch
(one accepted submission on `2024-01-01`, result
`{totalSolved: 1, history: [{2024-01-01, 1}]}`). -/
theorem cf_history_count_bounds_witness :
    1 ≤ (DailyRecord.mk "2024-01-01" 1).count ∧
      (DailyRecord.mk "2024-01-01" 1).count ≤
        (PlatformStats.mk 1 [DailyRecord.mk "2024-01-01" 1]).totalSolved :=
  cf_history_count_bounds "2024-05-15" exFmt "OK" [⟨"OK", 1, "A", some 1⟩]
    (PlatformStats.mk 1 [DailyRecord.mk "2024-01-01" 1]) (by decide)
    (DailyRecord.mk "2024-01-01" 1) (by decide)

/-- C2, the code evaluated at the failing input.  The LeetCode adapter does
*not* drop a record whose timestamp string is unparsable: `parseInt` yields
`NaN`, `getLocalDate` falls back to today's local date, and the record is
bucketed under today — here a calendar entry keyed `"garbage"` lands on
`"2024-05-15"` (today).  The Codeforces half conforms: an accepted
submission with a missing `creationTimeSeconds` is excluded from the
history while the fetch still succeeds. -/
theorem lc_unparsable_timestamp_behavior :
    fetchLeetCodeData "2024-05-15" exFmt "success" [("garbage", 5)] 100 =
        some ⟨100, [⟨"2024-05-15", 5⟩]⟩ ∧
      (fetchCodeforcesData "2024-05-15" exFmt "OK"
          [⟨"OK", 1, "A", none⟩]).map PlatformStats.history = some [] :=
  ⟨by decide, by decide⟩
